import Mathlib

/-!
Verification of the harmony-index-parser repository (parse_indexfiles.py).

The Python source is shallowly embedded below: each Python function becomes a
Lean definition over lists of characters / lists of lines, faithful to the
source semantics (regex search for the fixed UUID pattern, str.split, str.strip,
int(), csv.writer with minimal quoting, directory iteration as an entry list).
-/

namespace ParseIndexfiles

/-- Lowercase-hex character class of the regex, i.e. the set [a-f0-9]. -/
def isLowerHex (c : Char) : Bool :=
  ('a' ≤ c && c ≤ 'f') || ('0' ≤ c && c ≤ '9')

/-- Consume exactly n characters of the class [a-f0-9]; return the consumed
group and the remainder, or none if a non-hex character (or end of input)
arrives too early.  Models one fixed-width group of the regex. -/
def matchHexRun : Nat → List Char → Option (List Char × List Char)
  | 0, cs => some ([], cs)
  | _ + 1, [] => none
  | n + 1, c :: cs =>
    if isLowerHex c then
      (matchHexRun n cs).map (fun p => (c :: p.1, p.2))
    else
      none

/-- Consume one literal dash. -/
def matchDash : List Char → Option (List Char)
  | [] => none
  | c :: cs => if c = '-' then some cs else none

/-- Anchored match of the UUID body of the regex
[a-f0-9]{8}-[a-f0-9]{4}-[a-f0-9]{4}-[a-f0-9]{4}-[a-f0-9]{12},
returning the matched 36 characters and the remainder of the input. -/
def matchUuid (cs : List Char) : Option (List Char × List Char) :=
  (matchHexRun 8 cs).bind (fun p1 =>
    (matchDash p1.2).bind (fun r2 =>
      (matchHexRun 4 r2).bind (fun p2 =>
        (matchDash p2.2).bind (fun r4 =>
          (matchHexRun 4 r4).bind (fun p3 =>
            (matchDash p3.2).bind (fun r6 =>
              (matchHexRun 4 r6).bind (fun p4 =>
                (matchDash p4.2).bind (fun r8 =>
                  (matchHexRun 12 r8).map (fun p5 =>
                    (p1.1 ++ '-' :: (p2.1 ++ '-' :: (p3.1 ++ '-' :: (p4.1 ++ '-' :: p5.1))),
                      p5.2))))))))))

/-- Does the input start with the closing '/' the pattern demands? -/
def headIsSlash : List Char → Bool
  | [] => false
  | c :: _ => c = '/'

/-- Leftmost search for the full pattern /UUID/ in the input, exactly as
re.search tries each start position left to right: the pattern can only start
at a '/' character, and on success group(1) (the UUID body) is returned. -/
def reSearchUuid : List Char → Option (List Char)
  | [] => none
  | c :: rest =>
    if c = '/' then
      match matchUuid rest with
      | some (u, r) => if headIsSlash r then some u else reSearchUuid rest
      | none => reSearchUuid rest
    else
      reSearchUuid rest

/-- Embedding of extract_measurement_signature: re.search of the UUID-in-path
pattern over the URL, returning the captured group or None. -/
def extract_measurement_signature (url : String) : Option String :=
  (reSearchUuid url.data).map String.mk

/-- Prepend a character to the first part of a part list (helper for the
character-level splitters). -/
def consOnHead (c : Char) : List (List Char) → List (List Char)
  | [] => []
  | s :: ss => (c :: s) :: ss

/-- Split a character list on a separator character, keeping empty parts,
exactly like Python str.split with an explicit one-character separator. -/
def splitOnCh (sep : Char) : List Char → List (List Char)
  | [] => [[]]
  | c :: rest =>
    if c = sep then
      [] :: splitOnCh sep rest
    else
      consOnHead c (splitOnCh sep rest)

/-- Join parts with a separator character: left inverse of splitOnCh. -/
def joinWithCh (sep : Char) : List (List Char) → List Char
  | [] => []
  | [p] => p
  | p :: ps => p ++ sep :: joinWithCh sep ps

/-- A group of exactly n lowercase-hex characters. -/
def hexGroup (n : Nat) (s : List Char) : Bool :=
  s.length == n && s.all isLowerHex

/-- The canonical lowercase UUID textual form of the spec: dash-separated hex
groups of sizes 8-4-4-4-12. -/
def isCanonicalUuid (s : List Char) : Bool :=
  match splitOnCh '-' s with
  | [a, b, c, d, e] =>
    hexGroup 8 a && hexGroup 4 b && hexGroup 4 c && hexGroup 4 d && hexGroup 12 e
  | _ => false

/-- The parts of the input that are closed (terminated) by a later '/', in
order; equivalently all '/'-split parts except the final unterminated one. -/
def closedSegs : List Char → List (List Char)
  | [] => []
  | c :: rest =>
    if c = '/' then
      [] :: closedSegs rest
    else
      consOnHead c (closedSegs rest)

/-- The path segments of a URL that are enclosed between path separators:
every '/'-split part except the part before the first '/' and the part after
the last '/'. -/
def internalSegs (cs : List Char) : List (List Char) :=
  (closedSegs cs).drop 1

/-- Characters up to (excluding) the first occurrence of the two-underscore
delimiter, or the whole input when the delimiter is absent: the first element
of Python folder_name.split with separator two underscores. -/
def takeUntilDD : List Char → List Char
  | [] => []
  | [c] => [c]
  | c1 :: c2 :: rest =>
    if c1 = '_' && c2 = '_' then [] else c1 :: takeUntilDD (c2 :: rest)

/-- Embedding of extract_plate_barcode: the part of the folder name before the
first occurrence of the two-underscore delimiter. -/
def extract_plate_barcode (folder_name : String) : String :=
  String.mk (takeUntilDD folder_name.data)

/-- Does the input contain two consecutive underscores anywhere? -/
def containsDD : List Char → Bool
  | [] => false
  | [_] => false
  | c1 :: c2 :: rest => (c1 = '_' && c2 = '_') || containsDD (c2 :: rest)

/-- ASCII whitespace stripped by Python str.strip (space, tab, newline,
carriage return, vertical tab, form feed). -/
def isPySpace (c : Char) : Bool :=
  c = ' ' || c = '\t' || c = '\n' || c = '\r' || c = Char.ofNat 11 || c = Char.ofNat 12

/-- Python str.strip on a character list: drop whitespace at both ends. -/
def pyStripChars (cs : List Char) : List Char :=
  ((cs.dropWhile isPySpace).reverse.dropWhile isPySpace).reverse

/-- Python str.strip at the String level. -/
def pyStrip (s : String) : String :=
  String.mk (pyStripChars s.data)

/-- ASCII decimal digit. -/
def isAsciiDigit (c : Char) : Bool :=
  '0' ≤ c && c ≤ '9'

/-- Numeric value of an ASCII digit. -/
def digitVal (c : Char) : Nat :=
  c.toNat - '0'.toNat

/-- Continue parsing a Python integer literal after at least one digit was
seen: further digits, with single underscores allowed between digits only. -/
def pyIntDigitsAux (acc : Nat) : List Char → Option Nat
  | [] => some acc
  | c :: rest =>
    if c = '_' then
      match rest with
      | [] => none
      | d :: rest2 =>
        if isAsciiDigit d then pyIntDigitsAux (acc * 10 + digitVal d) rest2 else none
    else
      if isAsciiDigit c then pyIntDigitsAux (acc * 10 + digitVal c) rest else none

/-- Parse a nonempty run of ASCII digits (with optional single underscores
between digits) to its decimal value, as Python int() does after sign and
whitespace handling. -/
def pyIntDigits : List Char → Option Nat
  | [] => none
  | c :: rest =>
    if isAsciiDigit c then pyIntDigitsAux (digitVal c) rest else none

/-- Model of Python int(str) on ASCII input: strip whitespace, optional sign,
then a nonempty digit run; None models the ValueError raised otherwise. -/
def pyInt? (s : String) : Option Int :=
  match pyStripChars s.data with
  | [] => none
  | c :: rest =>
    if c = '-' then
      (pyIntDigits rest).map (fun n => -(n : Int))
    else if c = '+' then
      (pyIntDigits rest).map (fun n => (n : Int))
    else
      (pyIntDigits (c :: rest)).map (fun n => (n : Int))

/-- A nonempty string consisting solely of ASCII digits. -/
def isDigitString (s : String) : Bool :=
  !s.data.isEmpty && s.data.all isAsciiDigit

/-- Does the needle occur as a prefix of the haystack? -/
def startsWithSub : List Char → List Char → Bool
  | [], _ => true
  | _ :: _, [] => false
  | n :: ns, h :: hs => n = h && startsWithSub ns hs

/-- Substring containment (Python in-operator on str). -/
def containsSub (needle : List Char) : List Char → Bool
  | [] => startsWithSub needle []
  | h :: hs => startsWithSub needle (h :: hs) || containsSub needle hs

/-- Test of the source line: the literal URL occurs in col.upper(); Char.toUpper
models Python str.upper on the ASCII range. -/
def hasUrl (col : String) : Bool :=
  containsSub "URL".data (col.data.map Char.toUpper)

/-- The enumerate loop of process_indexfile: index of the first column whose
uppercased name contains URL, scanning left to right from index i. -/
def findUrlColAux (i : Nat) : List String → Option Nat
  | [] => none
  | col :: cols => if hasUrl col then some i else findUrlColAux (i + 1) cols

/-- First URL-column index of a header column list. -/
def findUrlColIdx (cols : List String) : Option Nat :=
  findUrlColAux 0 cols

/-- The header columns read by process_indexfile: first line of the file,
stripped, then split on tab characters. -/
def headerCols (lines : List String) : List String :=
  (splitOnCh '\t' (pyStrip (lines.headD "")).data).map String.mk

/-- Embedding of process_indexfile over the file's lines (readline yields the
next line or an empty string at end of file).  Returns the extracted
signature, the lines left unread, and the warning lines printed.  The path
argument only feeds the warning text. -/
def process_indexfileFull (path : String) (lines : List String) :
    Option String × List String × List String :=
  match findUrlColIdx (headerCols lines) with
  | none => (none, lines.tail, ["Warning: No URL column found in " ++ path])
  | some url_col_index =>
    let first_line := pyStripChars ((lines.tail).headD "").data
    if first_line.isEmpty then
      (none, lines.tail.tail, [])
    else
      let columns := splitOnCh '\t' first_line
      if url_col_index < columns.length then
        (extract_measurement_signature (String.mk (columns.getD url_col_index [])),
          lines.tail.tail, [])
      else
        (none, lines.tail.tail, [])

/-- The result component of process_indexfile alone. -/
def process_indexfile (lines : List String) : Option String :=
  (process_indexfileFull "" lines).1

/-- One entry of the input root directory: a subdirectory with its regular
files (name and lines), or a plain file.  iterdir of the root yields these in
list order. -/
inductive Entry where
  | dir (name : String) (files : List (String × List String))
  | file (name : String)

/-- The body of the scan loop for a single directory entry: results
contributed and lines printed (warnings and progress notices). -/
def entryProcess (dirPath : String) : Entry → List (String × String) × List String
  | Entry.file _ => ([], [])
  | Entry.dir name files =>
    let plate_barcode := extract_plate_barcode name
    let folder_path := dirPath ++ "/" ++ name
    match files.lookup "indexfile.txt" with
    | none => ([], ["Warning: indexfile.txt not found in " ++ folder_path])
    | some flines =>
      let r := process_indexfileFull (folder_path ++ "/indexfile.txt") flines
      match r.1 with
      | some s =>
        if s = "" then
          ([], r.2.2 ++ ["Warning: No measurement signature found for " ++ plate_barcode])
        else
          ([(plate_barcode, s)], r.2.2 ++ ["Processed: " ++ plate_barcode ++ " -> " ++ s])
      | none =>
        ([], r.2.2 ++ ["Warning: No measurement signature found for " ++ plate_barcode])

/-- Embedding of process_indexfiles_directory: fold the per-entry step over
the immediate entries of the root, accumulating results and printed lines. -/
def process_indexfiles_directory (dirPath : String) : List Entry → List (String × String) × List String
  | [] => ([], [])
  | e :: es =>
    let p := entryProcess dirPath e
    let q := process_indexfiles_directory dirPath es
    (p.1 ++ q.1, p.2 ++ q.2)

/-- Does csv.writer (QUOTE_MINIMAL) have to quote this field? -/
def csvNeedsQuote (s : List Char) : Bool :=
  s.any (fun c => c = ',' || c = '"' || c = '\r' || c = '\n')

/-- Double every quote character, as csv.writer does inside quoted fields. -/
def csvEscapeQuotes : List Char → List Char
  | [] => []
  | c :: rest =>
    if c = '"' then '"' :: '"' :: csvEscapeQuotes rest else c :: csvEscapeQuotes rest

/-- One serialized CSV field under the default dialect. -/
def csvField (s : List Char) : List Char :=
  if csvNeedsQuote s then '"' :: (csvEscapeQuotes s ++ ['"']) else s

/-- Join serialized fields with commas. -/
def csvJoinFields : List (List Char) → List Char
  | [] => []
  | [f] => f
  | f :: fs => f ++ ',' :: csvJoinFields fs

/-- One CSV record: comma-joined fields terminated by CRLF (the default
lineterminator of csv.writer). -/
def csvLine (fields : List (List Char)) : List Char :=
  csvJoinFields (fields.map csvField) ++ ['\r', '\n']

/-- The full text csv.writer produces for a list of rows. -/
def csvRenderRows (rows : List (List String)) : String :=
  String.mk ((rows.map (fun row => csvLine (row.map String.data))).flatten)

/-- Split file text on CRLF record terminators. -/
def splitCRLF : List Char → List (List Char)
  | [] => [[]]
  | [c] => [[c]]
  | c1 :: c2 :: rest =>
    if c1 = '\r' && c2 = '\n' then [] :: splitCRLF rest
    else consOnHead c1 (splitCRLF (c2 :: rest))

/-- Re-read a CSV text that contains no quoted fields: split records on CRLF
(dropping the empty part after the final terminator) and fields on commas. -/
def csvParseSimple (content : String) : List (List String) :=
  ((splitCRLF content.data).dropLast).map (fun l => (splitOnCh ',' l).map String.mk)

/-- The key computation pass of sorted(results, key=int of first component):
pair every entry with its integer key, or None as soon as int() raises. -/
def keyResults : List (String × String) → Option (List (Int × String × String))
  | [] => some []
  | r :: rs =>
    match pyInt? r.1 with
    | none => none
    | some k =>
      match keyResults rs with
      | none => none
      | some ks => some ((k, r) :: ks)

/-- Comparison used by the sort: keys ascending. -/
def resultKeyLe (a b : Int × String × String) : Prop :=
  a.1 ≤ b.1

instance : DecidableRel resultKeyLe :=
  fun a b => inferInstanceAs (Decidable (a.1 ≤ b.1))

instance : IsTotal (Int × String × String) resultKeyLe :=
  ⟨fun a b => Int.le_total a.1 b.1⟩

instance : IsTrans (Int × String × String) resultKeyLe :=
  ⟨fun _ _ _ h1 h2 => Int.le_trans h1 h2⟩

/-- Embedding of sorted(results, key=int of barcode): a stable sort on the
integer keys (stable sorting determines the output uniquely, so insertion
sort is observationally the same as the stable sort Python uses), or None
when some barcode does not parse. -/
def pySortResults (results : List (String × String)) : Option (List (String × String)) :=
  (keyResults results).map
    (fun keyed => (List.insertionSort resultKeyLe keyed).map (fun kr => kr.2))

/-- Observable outcome of save_results_to_csv: the error condition (None on
success) and the file content at the output path after the call. -/
structure SaveOutcome where
  error : Option String
  file : Option String
  deriving DecidableEq

/-- The fixed header row of the output CSV. -/
def headerFields : List String :=
  ["Plate_Barcode", "Measurement_Signature"]

/-- The fixed output file name chosen by main. -/
def output_csv_filename : String :=
  "plates_measurement_signatures.csv"

/-- Embedding of save_results_to_csv, with the pre-existing file content at
the output path made explicit: sorting happens before the file is opened, so
an unparseable barcode aborts with the file untouched; otherwise the header
row and the sorted data rows are written. -/
def save_results_to_csv (results : List (String × String)) (existing : Option String) :
    SaveOutcome :=
  match pySortResults results with
  | none => ⟨some "non-numeric barcode", existing⟩
  | some sorted =>
    ⟨none, some (csvRenderRows (headerFields :: sorted.map (fun r => [r.1, r.2])))⟩

/-- The metadata file content of the worked example in the spec. -/
def demoIndexLines : List String :=
  ["Row\tURL\tDate", "1\thttp://host/abc12345-1111-2222-3333-444455556666/file\t2024-01-01"]

/-- The two-folder scenario of the spec: 100__A has valid metadata, 200__B
lacks the metadata file. -/
def demoEntries : List Entry :=
  [Entry.dir "100__A" [("indexfile.txt", demoIndexLines)],
   Entry.dir "200__B" []]

/-- A lowercase-hex character is not a slash. -/
theorem isLowerHex_ne_slash {c : Char} (h : isLowerHex c = true) : c ≠ '/' := by
  intro e
  subst e
  exact absurd h (by decide)

/-- A lowercase-hex character is not a dash. -/
theorem isLowerHex_ne_dash {c : Char} (h : isLowerHex c = true) : c ≠ '-' := by
  intro e
  subst e
  exact absurd h (by decide)

/-- Soundness of the fixed-width hex matcher: on success the group has the
requested length, is all hex, and prefixes the input. -/
theorem matchHexRun_sound : ∀ (n : Nat) (cs g r : List Char),
    matchHexRun n cs = some (g, r) →
    g.length = n ∧ g.all isLowerHex = true ∧ cs = g ++ r
  | 0, cs, g, r, h => by
    simp only [matchHexRun, Option.some.injEq, Prod.mk.injEq] at h
    obtain ⟨h1, h2⟩ := h
    subst h1
    subst h2
    simp
  | _ + 1, [], g, r, h => by
    simp [matchHexRun] at h
  | n + 1, c :: cs, g, r, h => by
    simp only [matchHexRun] at h
    by_cases hc : isLowerHex c = true
    · rw [if_pos hc] at h
      cases hm : matchHexRun n cs with
      | none => rw [hm] at h; simp at h
      | some p =>
        rw [hm] at h
        simp only [Option.map_some', Option.some.injEq, Prod.mk.injEq] at h
        obtain ⟨h1, h2⟩ := h
        obtain ⟨hl, ha, he⟩ := matchHexRun_sound n cs p.1 p.2 (by rw [hm])
        subst h1
        subst h2
        refine ⟨by simp [hl], ?_, by simp [he]⟩
        simp [List.all_cons, hc, ha]
    · rw [if_neg hc] at h
      simp at h

/-- Completeness of the fixed-width hex matcher. -/
theorem matchHexRun_complete : ∀ (g : List Char), g.all isLowerHex = true →
    ∀ (r : List Char), matchHexRun g.length (g ++ r) = some (g, r)
  | [], _, r => by simp [matchHexRun]
  | c :: g, h, r => by
    simp only [List.all_cons, Bool.and_eq_true] at h
    simp only [List.length_cons, List.cons_append, matchHexRun, if_pos h.1, List.append_eq]
    rw [matchHexRun_complete g h.2 r]
    rfl

/-- splitOnCh of a separator-free list is that single part. -/
theorem splitOnCh_of_not_mem {sep : Char} : ∀ (a : List Char), sep ∉ a →
    splitOnCh sep a = [a]
  | [], _ => rfl
  | c :: a, h => by
    have hc : ¬ c = sep := fun e => h (by simp [e])
    have ha : sep ∉ a := fun m => h (List.mem_cons_of_mem _ m)
    simp only [splitOnCh, if_neg hc]
    rw [splitOnCh_of_not_mem a ha]
    rfl

/-- splitOnCh pulls off a separator-free first part. -/
theorem splitOnCh_append {sep : Char} : ∀ (a r : List Char), sep ∉ a →
    splitOnCh sep (a ++ sep :: r) = a :: splitOnCh sep r
  | [], r, _ => by simp [splitOnCh]
  | c :: a, r, h => by
    have hc : ¬ c = sep := fun e => h (by simp [e])
    have ha : sep ∉ a := fun m => h (List.mem_cons_of_mem _ m)
    simp only [List.cons_append, splitOnCh, if_neg hc, List.append_eq]
    rw [splitOnCh_append a r ha]
    rfl

/-- splitOnCh never returns the empty list of parts. -/
theorem splitOnCh_ne_nil {sep : Char} : ∀ (cs : List Char), splitOnCh sep cs ≠ []
  | [] => by simp [splitOnCh]
  | c :: cs => by
    simp only [splitOnCh]
    by_cases hc : c = sep
    · simp [hc]
    · rw [if_neg hc]
      cases hs : splitOnCh sep cs with
      | nil => exact absurd hs (splitOnCh_ne_nil cs)
      | cons p ps => simp [consOnHead]

/-- Joining the split parts restores the input. -/
theorem joinWithCh_splitOnCh {sep : Char} : ∀ (cs : List Char),
    joinWithCh sep (splitOnCh sep cs) = cs
  | [] => rfl
  | c :: cs => by
    simp only [splitOnCh]
    by_cases hc : c = sep
    · rw [if_pos hc]
      cases hs : splitOnCh sep cs with
      | nil => exact absurd hs (splitOnCh_ne_nil cs)
      | cons p ps =>
        simp only [joinWithCh]
        have := @joinWithCh_splitOnCh sep cs
        rw [hs] at this
        rw [hc, this]
        rfl
    · rw [if_neg hc]
      cases hs : splitOnCh sep cs with
      | nil => exact absurd hs (splitOnCh_ne_nil cs)
      | cons p ps =>
        have := @joinWithCh_splitOnCh sep cs
        rw [hs] at this
        cases ps with
        | nil =>
          simp only [consOnHead, joinWithCh]
          simp only [joinWithCh] at this
          rw [this]
        | cons q qs =>
          simp only [consOnHead, joinWithCh]
          simp only [joinWithCh] at this
          rw [List.cons_append, this]

/-- Soundness of the dash matcher. -/
theorem matchDash_sound : ∀ (cs r : List Char), matchDash cs = some r → cs = '-' :: r
  | [], r, h => by simp [matchDash] at h
  | c :: cs, r, h => by
    simp only [matchDash] at h
    by_cases hc : c = '-'
    · rw [if_pos hc] at h
      simp only [Option.some.injEq] at h
      rw [hc, h]
    · rw [if_neg hc] at h
      simp at h

/-- Completeness of the dash matcher. -/
theorem matchDash_complete (r : List Char) : matchDash ('-' :: r) = some r := by
  simp [matchDash]

/-- A list of lowercase-hex characters has no dash. -/
theorem dash_not_mem_of_all_hex {g : List Char} (h : g.all isLowerHex = true) : '-' ∉ g := by
  intro m
  exact isLowerHex_ne_dash (List.all_eq_true.mp h _ m) rfl

/-- A list of lowercase-hex characters has no slash. -/
theorem slash_not_mem_of_all_hex {g : List Char} (h : g.all isLowerHex = true) : '/' ∉ g := by
  intro m
  exact isLowerHex_ne_slash (List.all_eq_true.mp h _ m) rfl

/-- The canonical-UUID test holds of exactly the dash-joined well-shaped
groups: construction direction. -/
theorem isCanonicalUuid_of_groups (a b c d e : List Char)
    (ha : hexGroup 8 a = true) (hb : hexGroup 4 b = true) (hc : hexGroup 4 c = true)
    (hd : hexGroup 4 d = true) (he : hexGroup 12 e = true) :
    isCanonicalUuid (a ++ '-' :: (b ++ '-' :: (c ++ '-' :: (d ++ '-' :: e)))) = true := by
  have hae : '-' ∉ a := dash_not_mem_of_all_hex (Bool.and_elim_right ha)
  have hbe : '-' ∉ b := dash_not_mem_of_all_hex (Bool.and_elim_right hb)
  have hce : '-' ∉ c := dash_not_mem_of_all_hex (Bool.and_elim_right hc)
  have hde : '-' ∉ d := dash_not_mem_of_all_hex (Bool.and_elim_right hd)
  have hee : '-' ∉ e := dash_not_mem_of_all_hex (Bool.and_elim_right he)
  unfold isCanonicalUuid
  rw [splitOnCh_append a _ hae, splitOnCh_append b _ hbe, splitOnCh_append c _ hce,
    splitOnCh_append d _ hde, splitOnCh_of_not_mem e hee]
  simp [ha, hb, hc, hd, he]

/-- The canonical-UUID test holds only of dash-joined well-shaped groups:
decomposition direction. -/
theorem isCanonicalUuid_decomp (u : List Char) (h : isCanonicalUuid u = true) :
    ∃ a b c d e, u = a ++ '-' :: (b ++ '-' :: (c ++ '-' :: (d ++ '-' :: e))) ∧
      hexGroup 8 a = true ∧ hexGroup 4 b = true ∧ hexGroup 4 c = true ∧
      hexGroup 4 d = true ∧ hexGroup 12 e = true := by
  have hj := @joinWithCh_splitOnCh '-' u
  unfold isCanonicalUuid at h
  cases hs : splitOnCh '-' u with
  | nil => rw [hs] at h; simp at h
  | cons a t1 =>
    cases t1 with
    | nil => rw [hs] at h; simp at h
    | cons b t2 =>
      cases t2 with
      | nil => rw [hs] at h; simp at h
      | cons c t3 =>
        cases t3 with
        | nil => rw [hs] at h; simp at h
        | cons d t4 =>
          cases t4 with
          | nil => rw [hs] at h; simp at h
          | cons e t5 =>
            cases t5 with
            | cons f t6 => rw [hs] at h; simp at h
            | nil =>
              rw [hs] at h
              simp only [Bool.and_eq_true] at h
              refine ⟨a, b, c, d, e, ?_, h.1.1.1.1, h.1.1.1.2, h.1.1.2, h.1.2, h.2⟩
              rw [hs] at hj
              simp only [joinWithCh] at hj
              rw [← hj]

/-- Every character of a canonical UUID is lowercase hex or a dash. -/
theorem isCanonicalUuid_chars {u : List Char} (h : isCanonicalUuid u = true) :
    ∀ ch ∈ u, isLowerHex ch = true ∨ ch = '-' := by
  obtain ⟨a, b, c, d, e, rfl, ha, hb, hc, hd, he⟩ := isCanonicalUuid_decomp u h
  intro ch hm
  simp only [List.mem_append, List.mem_cons] at hm
  rcases hm with h1 | h1 | h1 | h1 | h1 | h1 | h1 | h1 | h1
  · exact Or.inl (List.all_eq_true.mp (Bool.and_elim_right ha) _ h1)
  · exact Or.inr h1
  · exact Or.inl (List.all_eq_true.mp (Bool.and_elim_right hb) _ h1)
  · exact Or.inr h1
  · exact Or.inl (List.all_eq_true.mp (Bool.and_elim_right hc) _ h1)
  · exact Or.inr h1
  · exact Or.inl (List.all_eq_true.mp (Bool.and_elim_right hd) _ h1)
  · exact Or.inr h1
  · exact Or.inl (List.all_eq_true.mp (Bool.and_elim_right he) _ h1)

/-- A canonical UUID contains no slash. -/
theorem isCanonicalUuid_no_slash {u : List Char} (h : isCanonicalUuid u = true) :
    '/' ∉ u := by
  intro m
  rcases isCanonicalUuid_chars h _ m with h1 | h1
  · exact isLowerHex_ne_slash h1 rfl
  · exact absurd h1 (by decide)

/-- A canonical UUID has exactly 36 characters. -/
theorem isCanonicalUuid_length {u : List Char} (h : isCanonicalUuid u = true) :
    u.length = 36 := by
  obtain ⟨a, b, c, d, e, rfl, ha, hb, hc, hd, he⟩ := isCanonicalUuid_decomp u h
  have la : a.length = 8 := Nat.beq_eq ▸ by
    have := Bool.and_elim_left ha
    simpa [hexGroup] using Bool.and_elim_left ha
  have lb : b.length = 4 := by simpa [hexGroup] using Bool.and_elim_left hb
  have lc : c.length = 4 := by simpa [hexGroup] using Bool.and_elim_left hc
  have ld : d.length = 4 := by simpa [hexGroup] using Bool.and_elim_left hd
  have le' : e.length = 12 := by simpa [hexGroup] using Bool.and_elim_left he
  simp [List.length_append, la, lb, lc, ld, le']

/-- Soundness of the anchored UUID matcher: a successful match splits the
input into a canonical UUID and the remainder. -/
theorem matchUuid_sound (cs u r : List Char) (h : matchUuid cs = some (u, r)) :
    isCanonicalUuid u = true ∧ cs = u ++ r := by
  unfold matchUuid at h
  rw [Option.bind_eq_some] at h
  obtain ⟨p1, e1, h⟩ := h
  rw [Option.bind_eq_some] at h
  obtain ⟨r2, e2, h⟩ := h
  rw [Option.bind_eq_some] at h
  obtain ⟨p2, e3, h⟩ := h
  rw [Option.bind_eq_some] at h
  obtain ⟨r4, e4, h⟩ := h
  rw [Option.bind_eq_some] at h
  obtain ⟨p3, e5, h⟩ := h
  rw [Option.bind_eq_some] at h
  obtain ⟨r6, e6, h⟩ := h
  rw [Option.bind_eq_some] at h
  obtain ⟨p4, e7, h⟩ := h
  rw [Option.bind_eq_some] at h
  obtain ⟨r8, e8, h⟩ := h
  rw [Option.map_eq_some'] at h
  obtain ⟨p5, e9, h⟩ := h
  obtain ⟨s1l, s1a, s1e⟩ := matchHexRun_sound 8 cs p1.1 p1.2 (by rw [← e1])
  obtain ⟨s2l, s2a, s2e⟩ := matchHexRun_sound 4 r2 p2.1 p2.2 (by rw [← e3])
  obtain ⟨s3l, s3a, s3e⟩ := matchHexRun_sound 4 r4 p3.1 p3.2 (by rw [← e5])
  obtain ⟨s4l, s4a, s4e⟩ := matchHexRun_sound 4 r6 p4.1 p4.2 (by rw [← e7])
  obtain ⟨s5l, s5a, s5e⟩ := matchHexRun_sound 12 r8 p5.1 p5.2 (by rw [← e9])
  have d1 := matchDash_sound p1.2 r2 e2
  have d2 := matchDash_sound p2.2 r4 e4
  have d3 := matchDash_sound p3.2 r6 e6
  have d4 := matchDash_sound p4.2 r8 e8
  have hu : u = p1.1 ++ '-' :: (p2.1 ++ '-' :: (p3.1 ++ '-' :: (p4.1 ++ '-' :: p5.1))) := by
    have := congrArg Prod.fst h
    simpa using this.symm
  have hr : r = p5.2 := by
    have := congrArg Prod.snd h
    simpa using this.symm
  constructor
  · rw [hu]
    exact isCanonicalUuid_of_groups p1.1 p2.1 p3.1 p4.1 p5.1
      (by simp [hexGroup, s1l, s1a]) (by simp [hexGroup, s2l, s2a])
      (by simp [hexGroup, s3l, s3a]) (by simp [hexGroup, s4l, s4a])
      (by simp [hexGroup, s5l, s5a])
  · rw [hu, hr, s1e, d1, s2e, d2, s3e, d3, s4e, d4, s5e]
    simp

/-- Completeness of the anchored UUID matcher: a canonical UUID at the head of
the input always matches, leaving exactly the rest. -/
theorem matchUuid_complete (u r : List Char) (h : isCanonicalUuid u = true) :
    matchUuid (u ++ r) = some (u, r) := by
  obtain ⟨a, b, c, d, e, rfl, ha, hb, hc, hd, he⟩ := isCanonicalUuid_decomp u h
  have la : a.length = 8 := by simpa [hexGroup] using Bool.and_elim_left ha
  have lb : b.length = 4 := by simpa [hexGroup] using Bool.and_elim_left hb
  have lc : c.length = 4 := by simpa [hexGroup] using Bool.and_elim_left hc
  have ld : d.length = 4 := by simpa [hexGroup] using Bool.and_elim_left hd
  have le' : e.length = 12 := by simpa [hexGroup] using Bool.and_elim_left he
  have ca := matchHexRun_complete a (Bool.and_elim_right ha)
  have cb := matchHexRun_complete b (Bool.and_elim_right hb)
  have cc := matchHexRun_complete c (Bool.and_elim_right hc)
  have cd := matchHexRun_complete d (Bool.and_elim_right hd)
  have ce := matchHexRun_complete e (Bool.and_elim_right he)
  rw [la] at ca
  rw [lb] at cb
  rw [lc] at cc
  rw [ld] at cd
  rw [le'] at ce
  unfold matchUuid
  have step1 : (a ++ '-' :: (b ++ '-' :: (c ++ '-' :: (d ++ '-' :: e)))) ++ r =
      a ++ ('-' :: (b ++ '-' :: (c ++ '-' :: (d ++ '-' :: e))) ++ r) := by simp
  rw [step1, ca]
  simp only [Option.some_bind]
  rw [List.cons_append, matchDash_complete]
  simp only [Option.some_bind]
  have step2 : (b ++ '-' :: (c ++ '-' :: (d ++ '-' :: e))) ++ r =
      b ++ ('-' :: (c ++ '-' :: (d ++ '-' :: e)) ++ r) := by simp
  rw [step2, cb]
  simp only [Option.some_bind]
  rw [List.cons_append, matchDash_complete]
  simp only [Option.some_bind]
  have step3 : (c ++ '-' :: (d ++ '-' :: e)) ++ r = c ++ ('-' :: (d ++ '-' :: e) ++ r) := by
    simp
  rw [step3, cc]
  simp only [Option.some_bind]
  rw [List.cons_append, matchDash_complete]
  simp only [Option.some_bind]
  have step4 : (d ++ '-' :: e) ++ r = d ++ ('-' :: e ++ r) := by simp
  rw [step4, cd]
  simp only [Option.some_bind]
  rw [List.cons_append, matchDash_complete]
  simp only [Option.some_bind]
  rw [ce]
  rfl

/-- A slash-free input has no closed parts. -/
theorem closedSegs_no_slash : ∀ (cs : List Char), '/' ∉ cs → closedSegs cs = []
  | [], _ => rfl
  | c :: cs, h => by
    have hc : ¬ c = '/' := fun e => h (by simp [e])
    have hcs : '/' ∉ cs := fun m => h (List.mem_cons_of_mem _ m)
    simp only [closedSegs, if_neg hc]
    rw [closedSegs_no_slash cs hcs]
    rfl

/-- closedSegs pulls off a slash-free part terminated by a slash. -/
theorem closedSegs_append_slash : ∀ (s t : List Char), '/' ∉ s →
    closedSegs (s ++ '/' :: t) = s :: closedSegs t
  | [], t, _ => by simp [closedSegs]
  | c :: s, t, h => by
    have hc : ¬ c = '/' := fun e => h (by simp [e])
    have hs : '/' ∉ s := fun m => h (List.mem_cons_of_mem _ m)
    simp only [List.cons_append, closedSegs, if_neg hc, List.append_eq]
    rw [closedSegs_append_slash s t hs]
    rfl

/-- The search fails on slash-free input (the pattern needs a slash). -/
theorem reSearchUuid_no_slash : ∀ (cs : List Char), '/' ∉ cs → reSearchUuid cs = none
  | [], _ => rfl
  | c :: cs, h => by
    have hc : ¬ c = '/' := fun e => h (by simp [e])
    have hcs : '/' ∉ cs := fun m => h (List.mem_cons_of_mem _ m)
    simp only [reSearchUuid, if_neg hc]
    exact reSearchUuid_no_slash cs hcs

/-- The search skips over a slash-free span of the input. -/
theorem reSearchUuid_skip : ∀ (s t : List Char), '/' ∉ s →
    reSearchUuid (s ++ t) = reSearchUuid t
  | [], _, _ => rfl
  | c :: s, t, h => by
    have hc : ¬ c = '/' := fun e => h (by simp [e])
    have hs : '/' ∉ s := fun m => h (List.mem_cons_of_mem _ m)
    simp only [List.cons_append, reSearchUuid, if_neg hc, List.append_eq]
    exact reSearchUuid_skip s t hs

/-- Every input either has no slash, or splits at its first slash. -/
theorem first_slash_decomp : ∀ (cs : List Char),
    '/' ∉ cs ∨ ∃ s t, cs = s ++ '/' :: t ∧ '/' ∉ s
  | [] => Or.inl (by simp)
  | c :: cs => by
    by_cases hc : c = '/'
    · exact Or.inr ⟨[], cs, by rw [hc]; rfl, by simp⟩
    · rcases first_slash_decomp cs with h | ⟨s, t, he, hn⟩
      · refine Or.inl ?_
        intro m
        rcases List.mem_cons.mp m with e | e
        · exact hc e.symm
        · exact h e
      · refine Or.inr ⟨c :: s, t, by rw [he]; rfl, ?_⟩
        intro m
        rcases List.mem_cons.mp m with e | e
        · exact hc e.symm
        · exact hn e

/-- Two decompositions at a first slash agree. -/
theorem first_slash_unique : ∀ (u s r t : List Char), '/' ∉ u → '/' ∉ s →
    u ++ '/' :: r = s ++ '/' :: t → u = s ∧ r = t := by
  intro u
  induction u with
  | nil =>
    intro s r t _ hs h
    cases s with
    | nil =>
      simp only [List.nil_append, List.cons.injEq] at h
      exact ⟨rfl, h.2⟩
    | cons c s =>
      simp only [List.nil_append, List.cons_append, List.cons.injEq] at h
      exact absurd (h.1 ▸ List.mem_cons_self c s) (by rw [← h.1] at hs; exact hs)
  | cons c u ih =>
    intro s r t hu hs h
    cases s with
    | nil =>
      simp only [List.cons_append, List.nil_append, List.cons.injEq] at h
      exact absurd (by simp [h.1]) hu
    | cons c2 s =>
      simp only [List.cons_append, List.cons.injEq] at h
      obtain ⟨rfl, h2⟩ := h
      have hu2 : '/' ∉ u := fun m => hu (List.mem_cons_of_mem _ m)
      have hs2 : '/' ∉ s := fun m => hs (List.mem_cons_of_mem _ m)
      obtain ⟨h3, h4⟩ := ih s r t hu2 hs2 h2
      exact ⟨by rw [h3], h4⟩

/-- Evaluation of the search at a slash when the anchored match fails. -/
theorem reSearchUuid_slash_none {rest : List Char} (hm : matchUuid rest = none) :
    reSearchUuid ('/' :: rest) = reSearchUuid rest := by
  simp [reSearchUuid, hm]

/-- Evaluation of the search at a slash when the anchored match succeeds but
the closing slash is missing. -/
theorem reSearchUuid_slash_some_noslash {rest u r : List Char}
    (hm : matchUuid rest = some (u, r)) (hh : headIsSlash r = false) :
    reSearchUuid ('/' :: rest) = reSearchUuid rest := by
  simp [reSearchUuid, hm, hh]

/-- Evaluation of the search at a slash when the full pattern matches. -/
theorem reSearchUuid_slash_some_slash {rest u r : List Char}
    (hm : matchUuid rest = some (u, r)) (hh : headIsSlash r = true) :
    reSearchUuid ('/' :: rest) = some u := by
  simp [reSearchUuid, hm, hh]

/-- The core correspondence, by strong induction on length: the leftmost
regex match is the first internal path segment in canonical UUID form. -/
theorem reSearchUuid_eq_aux : ∀ (n : Nat) (cs : List Char), cs.length ≤ n →
    reSearchUuid cs = ((internalSegs cs).filter isCanonicalUuid).head? := by
  intro n
  induction n with
  | zero =>
    intro cs h
    have he : cs = [] := List.eq_nil_of_length_eq_zero (Nat.le_zero.mp h)
    subst he
    rfl
  | succ n ih =>
    intro cs hlen
    cases cs with
    | nil => rfl
    | cons c rest =>
      by_cases hc : c = '/'
      · subst hc
        have hIS : internalSegs ('/' :: rest) = closedSegs rest := by
          simp [internalSegs, closedSegs]
        rw [hIS]
        rcases first_slash_decomp rest with hnos | ⟨s, t, hrest, hsfree⟩
        · rw [closedSegs_no_slash rest hnos]
          cases hm : matchUuid rest with
          | none =>
            rw [reSearchUuid_slash_none hm, reSearchUuid_no_slash rest hnos]
            simp
          | some p =>
            obtain ⟨u, r⟩ := p
            obtain ⟨hcan, heq⟩ := matchUuid_sound rest u r hm
            have hh : headIsSlash r = false := by
              cases r with
              | nil => rfl
              | cons x xs =>
                by_cases hx : x = '/'
                · exact absurd (by rw [heq, hx]; simp) hnos
                · simp [headIsSlash, hx]
            rw [reSearchUuid_slash_some_noslash hm hh, reSearchUuid_no_slash rest hnos]
            simp
        · subst hrest
          rw [closedSegs_append_slash s t hsfree]
          by_cases hcan : isCanonicalUuid s = true
          · rw [reSearchUuid_slash_some_slash (matchUuid_complete s ('/' :: t) hcan)
              (by simp [headIsSlash])]
            simp [List.filter_cons_of_pos, hcan]
          · have hfil : List.filter isCanonicalUuid (s :: closedSegs t) =
                List.filter isCanonicalUuid (closedSegs t) := by
              simp only [List.filter]
              rw [Bool.eq_false_iff.mpr hcan]
            rw [hfil]
            have hlen2 : ('/' :: t).length ≤ n := by
              have hr : (s ++ '/' :: t).length ≤ n := by
                simpa using Nat.le_of_succ_le_succ hlen
              simp only [List.length_append, List.length_cons] at hr ⊢
              omega
            have hihres := ih ('/' :: t) hlen2
            have hIS2 : internalSegs ('/' :: t) = closedSegs t := by
              simp [internalSegs, closedSegs]
            rw [hIS2] at hihres
            rw [← hihres]
            cases hm : matchUuid (s ++ '/' :: t) with
            | none =>
              rw [reSearchUuid_slash_none hm, reSearchUuid_skip s ('/' :: t) hsfree]
            | some p =>
              obtain ⟨u, r⟩ := p
              obtain ⟨hpc, heq⟩ := matchUuid_sound (s ++ '/' :: t) u r hm
              have hh : headIsSlash r = false := by
                cases r with
                | nil =>
                  exfalso
                  rw [List.append_nil] at heq
                  have : '/' ∈ u := by rw [← heq]; simp
                  exact isCanonicalUuid_no_slash hpc this
                | cons x xs =>
                  by_cases hx : x = '/'
                  · exfalso
                    subst hx
                    obtain ⟨hus, _⟩ := first_slash_unique u s xs t
                      (isCanonicalUuid_no_slash hpc) hsfree heq.symm
                    exact hcan (hus ▸ hpc)
                  · simp [headIsSlash, hx]
              rw [reSearchUuid_slash_some_noslash hm hh, reSearchUuid_skip s ('/' :: t) hsfree]
      · have h1 : internalSegs (c :: rest) = internalSegs rest := by
          simp only [internalSegs, closedSegs, if_neg hc]
          cases hq : closedSegs rest with
          | nil => rfl
          | cons p ps => rfl
        rw [h1]
        simp only [reSearchUuid, if_neg hc]
        exact ih rest (by simpa using Nat.le_of_succ_le_succ hlen)

/-- The leftmost regex match equals the first canonical-UUID internal path
segment of the input. -/
theorem reSearchUuid_eq_segs (cs : List Char) :
    reSearchUuid cs = ((internalSegs cs).filter isCanonicalUuid).head? :=
  reSearchUuid_eq_aux cs.length cs le_rfl

/-- Without a double underscore, the barcode splitter returns its input. -/
theorem takeUntilDD_no_dd : ∀ (cs : List Char), containsDD cs = false → takeUntilDD cs = cs
  | [], _ => rfl
  | [c], _ => rfl
  | c1 :: c2 :: rest, h => by
    simp only [containsDD, Bool.or_eq_false_iff] at h
    simp only [takeUntilDD, h.1]
    rw [takeUntilDD_no_dd (c2 :: rest) h.2]
    simp

/-- The barcode splitter returns exactly the part before the first double
underscore (firstness expressed as: no double underscore occurs in the part
followed by one more underscore). -/
theorem takeUntilDD_first : ∀ (a b : List Char), containsDD (a ++ ['_']) = false →
    takeUntilDD (a ++ '_' :: '_' :: b) = a
  | [], b, _ => by simp [takeUntilDD]
  | [c], b, h => by
    simp only [List.cons_append, List.nil_append, containsDD, Bool.or_eq_false_iff] at h
    simp only [List.cons_append, List.nil_append, takeUntilDD, h.1]
    simp [takeUntilDD]
  | c1 :: c2 :: a2, b, h => by
    simp only [List.cons_append, containsDD, Bool.or_eq_false_iff] at h
    simp only [List.cons_append, takeUntilDD, h.1]
    have ih := takeUntilDD_first (c2 :: a2) b (by simpa using h.2)
    simp only [List.cons_append, List.append_eq] at ih
    simp only [Bool.false_eq_true, if_false, List.append_eq]
    rw [ih]

/-- C1: for every URL string, extract_measurement_signature returns the first
path segment enclosed between path separators that has the canonical
lowercase UUID form (hex groups 8-4-4-4-12, dash-separated), and the
not-found result None when no such segment exists; uppercase hex digits are
not lowercase hex, so segments containing them never match. -/
theorem claim_C1_extract_measurement_signature (url : String) :
    extract_measurement_signature url =
      (((internalSegs url.data).filter isCanonicalUuid).head?).map String.mk := by
  unfold extract_measurement_signature
  rw [reSearchUuid_eq_segs]

/-- C7: extract_plate_barcode returns the full folder name unchanged when the
two-underscore delimiter is absent, and otherwise exactly the part before the
first occurrence of the delimiter (and, being a total function, it never
errors). -/
theorem claim_C7_extract_plate_barcode (folder : String) (a b : List Char) :
    (containsDD folder.data = false → extract_plate_barcode folder = folder) ∧
    (folder.data = a ++ '_' :: '_' :: b → containsDD (a ++ ['_']) = false →
      extract_plate_barcode folder = String.mk a) := by
  constructor
  · intro h
    unfold extract_plate_barcode
    rw [takeUntilDD_no_dd _ h]
  · intro h1 h2
    unfold extract_plate_barcode
    rw [h1, takeUntilDD_first a b h2]

/-- Witness for C7 at concrete inputs: a folder name with the delimiter and
one without. -/
theorem claim_C7_witness :
    extract_plate_barcode "100__A" = "100" ∧ extract_plate_barcode "plain" = "plain" := by
  constructor
  · have h := (claim_C7_extract_plate_barcode "100__A" "100".data "A".data).2
      (by decide) (by decide)
    exact h
  · exact (claim_C7_extract_plate_barcode "plain" [] []).1 (by decide)

/-- The URL-column scan returns none when no column qualifies. -/
theorem findUrlColAux_none : ∀ (i : Nat) (cols : List String),
    (∀ col ∈ cols, hasUrl col = false) → findUrlColAux i cols = none
  | _, [], _ => rfl
  | i, col :: cols, h => by
    have hc : hasUrl col = false := h col (List.mem_cons_self col cols)
    simp only [findUrlColAux, hc]
    exact findUrlColAux_none (i + 1) cols (fun c m => h c (List.mem_cons_of_mem _ m))

/-- Soundness of the URL-column scan: the found index is in range, its column
qualifies, and it is the leftmost qualifying column. -/
theorem findUrlColAux_sound : ∀ (i : Nat) (cols : List String) (j : Nat),
    findUrlColAux i cols = some j → ∃ k, j = i + k ∧ k < cols.length ∧
      hasUrl (cols.getD k "") = true ∧ ∀ m < k, hasUrl (cols.getD m "") = false
  | _, [], _, h => by simp [findUrlColAux] at h
  | i, col :: cols, j, h => by
    simp only [findUrlColAux] at h
    by_cases hu : hasUrl col = true
    · rw [hu] at h
      simp only [if_true, Option.some.injEq] at h
      refine ⟨0, h.symm, by simp, by simpa using hu, fun m hm => absurd hm (Nat.not_lt_zero m)⟩
    · rw [Bool.eq_false_iff.mpr hu] at h
      simp only [Bool.false_eq_true, if_false] at h
      obtain ⟨k, hk1, hk2, hk3, hk4⟩ := findUrlColAux_sound (i + 1) cols j h
      refine ⟨k + 1, by omega, by simp [hk2], by simpa using hk3, ?_⟩
      intro m hm
      cases m with
      | zero => simpa using Bool.eq_false_iff.mpr hu
      | succ m =>
        simp only [List.getD_cons_succ]
        exact hk4 m (Nat.lt_of_succ_lt_succ hm)

/-- With a URL column found but an empty (or absent) first data line, the
reader returns no signature, consumes both lines, and prints nothing. -/
theorem process_indexfileFull_empty_data (path : String) (lines : List String) (i : Nat)
    (h1 : findUrlColIdx (headerCols lines) = some i)
    (h2 : pyStripChars ((lines.tail).headD "").data = []) :
    process_indexfileFull path lines = (none, lines.tail.tail, []) := by
  unfold process_indexfileFull
  rw [h1, h2]
  simp

/-- The scan is a homomorphism over the entry list. -/
theorem scan_append (dirPath : String) : ∀ (es1 es2 : List Entry),
    process_indexfiles_directory dirPath (es1 ++ es2) =
      ((process_indexfiles_directory dirPath es1).1 ++ (process_indexfiles_directory dirPath es2).1,
        (process_indexfiles_directory dirPath es1).2 ++ (process_indexfiles_directory dirPath es2).2)
  | [], es2 => by simp [process_indexfiles_directory]
  | e :: es1, es2 => by
    simp only [List.cons_append, process_indexfiles_directory, List.append_eq]
    rw [scan_append dirPath es1 es2]
    simp

/-- The scan of a single entry is the per-entry step. -/
theorem scan_singleton (dirPath : String) (e : Entry) :
    process_indexfiles_directory dirPath [e] = entryProcess dirPath e := by
  simp [process_indexfiles_directory]

/-- C5: the reader selects as URL column the first (leftmost) header column,
after splitting the stripped header on tabs, whose uppercased name contains
URL; when no header column qualifies it fails with the missing-URL-column
warning, leaving all lines after the header unread, whatever they hold. -/
theorem claim_C5_url_column_selection (path : String) (lines : List String) :
    ((∀ col ∈ headerCols lines, hasUrl col = false) →
      process_indexfileFull path lines =
        (none, lines.tail, ["Warning: No URL column found in " ++ path])) ∧
    (∀ j, findUrlColIdx (headerCols lines) = some j →
      j < (headerCols lines).length ∧ hasUrl ((headerCols lines).getD j "") = true ∧
        ∀ m < j, hasUrl ((headerCols lines).getD m "") = false) := by
  constructor
  · intro h
    unfold process_indexfileFull
    rw [show findUrlColIdx (headerCols lines) = none from findUrlColAux_none 0 _ h]
  · intro j hj
    obtain ⟨k, hk1, hk2, hk3, hk4⟩ := findUrlColAux_sound 0 (headerCols lines) j hj
    have hjk : j = k := by omega
    subst hjk
    exact ⟨hk2, hk3, hk4⟩

/-- Witness for C5: a header without URL fails with the warning and leaves
the data line unread; a header with URL at index 1 selects index 1. -/
theorem claim_C5_witness :
    process_indexfileFull "p" ["Row\tDate", "x"] =
      (none, ["x"], ["Warning: No URL column found in p"]) ∧
    (1 < (headerCols ["A\tURL"]).length ∧ hasUrl ((headerCols ["A\tURL"]).getD 1 "") = true ∧
      ∀ m < 1, hasUrl ((headerCols ["A\tURL"]).getD m "") = false) := by
  constructor
  · exact (claim_C5_url_column_selection "p" ["Row\tDate", "x"]).1 (by decide)
  · exact (claim_C5_url_column_selection "q" ["A\tURL"]).2 1 (by decide)

/-- C2: when the URL column sits at index i but the first data line, stripped
and split on tabs, has fewer than i columns, the reader yields no
signature. -/
theorem claim_C2_malformed_row (path : String) (lines : List String) (i : Nat)
    (h1 : findUrlColIdx (headerCols lines) = some i)
    (h2 : (splitOnCh '\t' (pyStripChars ((lines.tail).headD "").data)).length < i) :
    (process_indexfileFull path lines).1 = none := by
  unfold process_indexfileFull
  rw [h1]
  dsimp only
  by_cases he : (pyStripChars (lines.tail.headD "").data).isEmpty = true
  · rw [if_pos he]
  · rw [if_neg he]
    have hnotlt : ¬ i < (splitOnCh '\t' (pyStripChars (lines.tail.headD "").data)).length := by
      omega
    rw [if_neg hnotlt]

/-- Witness for C2: URL column at index 2, data row with a single column. -/
theorem claim_C2_witness :
    (process_indexfileFull "p" ["A\tB\tURL", "x"]).1 = none :=
  claim_C2_malformed_row "p" ["A\tB\tURL", "x"] 2 (by decide) (by decide)

/-- C10: a header-only metadata file (or one whose first data line is empty)
with a URL column yields no signature rather than an error; in the scan the
folder contributes no result, only the no-signature warning, and the other
folders are processed exactly as without it. -/
theorem claim_C10_header_only_file (path dirPath name : String) (lines : List String) (i : Nat)
    (es1 es2 : List Entry)
    (h1 : findUrlColIdx (headerCols lines) = some i)
    (h2 : pyStripChars ((lines.tail).headD "").data = []) :
    (process_indexfileFull path lines).1 = none ∧
    (process_indexfiles_directory dirPath
        (es1 ++ Entry.dir name [("indexfile.txt", lines)] :: es2)).1 =
      (process_indexfiles_directory dirPath es1).1 ++
        (process_indexfiles_directory dirPath es2).1 ∧
    ("Warning: No measurement signature found for " ++ extract_plate_barcode name) ∈
      (process_indexfiles_directory dirPath
        (es1 ++ Entry.dir name [("indexfile.txt", lines)] :: es2)).2 := by
  have hfolder : entryProcess dirPath (Entry.dir name [("indexfile.txt", lines)]) =
      ([], ["Warning: No measurement signature found for " ++ extract_plate_barcode name]) := by
    unfold entryProcess
    simp only [List.lookup]
    rw [show (("indexfile.txt" == "indexfile.txt") = true) from by decide]
    simp only [if_true]
    rw [process_indexfileFull_empty_data (dirPath ++ "/" ++ name ++ "/indexfile.txt") lines i h1 h2]
    simp
  refine ⟨?_, ?_, ?_⟩
  · rw [process_indexfileFull_empty_data path lines i h1 h2]
  · rw [show es1 ++ Entry.dir name [("indexfile.txt", lines)] :: es2 =
        es1 ++ ([Entry.dir name [("indexfile.txt", lines)]] ++ es2) from by simp]
    rw [scan_append dirPath es1 _, scan_append dirPath [Entry.dir name [("indexfile.txt", lines)]] es2]
    simp [scan_singleton, hfolder]
  · rw [show es1 ++ Entry.dir name [("indexfile.txt", lines)] :: es2 =
        es1 ++ ([Entry.dir name [("indexfile.txt", lines)]] ++ es2) from by simp]
    rw [scan_append dirPath es1 _, scan_append dirPath [Entry.dir name [("indexfile.txt", lines)]] es2]
    simp [scan_singleton, hfolder]

/-- Witness for C10: a one-line file whose header has a URL column, inside a
single scanned folder. -/
theorem claim_C10_witness :
    (process_indexfileFull "p" ["A\tURL"]).1 = none ∧
    (process_indexfiles_directory "d"
        ([] ++ Entry.dir "100__A" [("indexfile.txt", ["A\tURL"])] :: [])).1 =
      (process_indexfiles_directory "d" []).1 ++ (process_indexfiles_directory "d" []).1 ∧
    ("Warning: No measurement signature found for " ++ extract_plate_barcode "100__A") ∈
      (process_indexfiles_directory "d"
        ([] ++ Entry.dir "100__A" [("indexfile.txt", ["A\tURL"])] :: [])).2 :=
  claim_C10_header_only_file "p" "d" "100__A" ["A\tURL"] 1 [] [] (by decide) (by decide)

/-- A single unparseable barcode makes the key pass fail. -/
theorem keyResults_bad : ∀ (results : List (String × String)) (r0 : String × String),
    r0 ∈ results → pyInt? r0.1 = none → keyResults results = none
  | [], r0, hmem, _ => absurd hmem (List.not_mem_nil r0)
  | r :: rs, r0, hmem, hbad => by
    rcases List.mem_cons.mp hmem with he | hm
    · subst he
      simp [keyResults, hbad]
    · unfold keyResults
      cases hk : pyInt? r.1 with
      | none => rfl
      | some k =>
        rw [keyResults_bad rs r0 hm hbad]

/-- When every barcode parses, the key pass succeeds. -/
theorem keyResults_good : ∀ (results : List (String × String)),
    (∀ r ∈ results, (pyInt? r.1).isSome) → ∃ keyed, keyResults results = some keyed
  | [], _ => ⟨[], rfl⟩
  | r :: rs, h => by
    obtain ⟨k, hk⟩ := Option.isSome_iff_exists.mp (h r (List.mem_cons_self r rs))
    obtain ⟨keyed, hkeyed⟩ := keyResults_good rs (fun x m => h x (List.mem_cons_of_mem _ m))
    exact ⟨(k, r) :: keyed, by rw [keyResults]; rw [hk, hkeyed]⟩

/-- Soundness of the key pass: it decorates the entries in order with their
parsed integer keys. -/
theorem keyResults_sound : ∀ (results : List (String × String)) (keyed),
    keyResults results = some keyed →
    keyed.map (fun kr => kr.2) = results ∧ ∀ kr ∈ keyed, pyInt? kr.2.1 = some kr.1
  | [], keyed, h => by
    simp only [keyResults, Option.some.injEq] at h
    subst h
    exact ⟨rfl, fun kr m => absurd m (List.not_mem_nil kr)⟩
  | r :: rs, keyed, h => by
    unfold keyResults at h
    cases hk : pyInt? r.1 with
    | none => rw [hk] at h; exact absurd h (by simp)
    | some k =>
      rw [hk] at h
      cases hks : keyResults rs with
      | none => rw [hks] at h; exact absurd h (by simp)
      | some ks =>
        rw [hks] at h
        simp only [Option.some.injEq] at h
        subst h
        obtain ⟨ih1, ih2⟩ := keyResults_sound rs ks hks
        refine ⟨by simp [ih1], ?_⟩
        intro kr m
        rcases List.mem_cons.mp m with he | hm
        · subst he
          exact hk
        · exact ih2 kr hm

/-- C3: a result collection with any barcode that int() cannot parse makes
save_results_to_csv abort with the non-numeric-barcode condition before the
file is opened: no rows are emitted and a pre-existing file at the output
path is left exactly as it was. -/
theorem claim_C3_nonnumeric_barcode_aborts (results : List (String × String))
    (existing : Option String) (r0 : String × String)
    (hmem : r0 ∈ results) (hbad : pyInt? r0.1 = none) :
    save_results_to_csv results existing = ⟨some "non-numeric barcode", existing⟩ := by
  unfold save_results_to_csv pySortResults
  rw [keyResults_bad results r0 hmem hbad]
  rfl

/-- Witness for C3: a non-numeric barcode leaves the old file alone. -/
theorem claim_C3_witness :
    save_results_to_csv [("abc", "u")] (some "old") = ⟨some "non-numeric barcode", some "old"⟩ :=
  claim_C3_nonnumeric_barcode_aborts [("abc", "u")] (some "old") ("abc", "u")
    (by decide) (by decide)

/-- Shared success lemma for the writer: with all barcodes parseable the
write succeeds, the file holds the rendered header plus sorted rows, and the
sorted rows are an ascending-key permutation of the input. -/
theorem save_ok (results : List (String × String)) (existing : Option String)
    (h : ∀ r ∈ results, (pyInt? r.1).isSome) :
    (save_results_to_csv results existing).error = none ∧
    (save_results_to_csv results existing).file =
      some (csvRenderRows (headerFields ::
        ((pySortResults results).getD []).map (fun r => [r.1, r.2]))) ∧
    ((pySortResults results).getD []).Perm results ∧
    ((pySortResults results).getD []).Pairwise
      (fun a b => (pyInt? a.1).getD 0 ≤ (pyInt? b.1).getD 0) := by
  obtain ⟨keyed, hkeyed⟩ := keyResults_good results h
  obtain ⟨hmap, hkeys⟩ := keyResults_sound results keyed hkeyed
  have hsort : pySortResults results =
      some ((List.insertionSort resultKeyLe keyed).map (fun kr => kr.2)) := by
    unfold pySortResults
    rw [hkeyed]
    rfl
  have hgetD : (pySortResults results).getD [] =
      (List.insertionSort resultKeyLe keyed).map (fun kr => kr.2) := by
    rw [hsort]
    rfl
  refine ⟨?_, ?_, ?_, ?_⟩
  · unfold save_results_to_csv
    rw [hsort]
  · rw [hgetD]
    unfold save_results_to_csv
    rw [hsort]
  · rw [hgetD, ← hmap]
    exact List.Perm.map _ (List.perm_insertionSort resultKeyLe keyed)
  · rw [hgetD]
    rw [List.pairwise_map]
    have hsorted : (List.insertionSort resultKeyLe keyed).Pairwise resultKeyLe :=
      List.sorted_insertionSort resultKeyLe keyed
    refine List.Pairwise.imp_of_mem ?_ hsorted
    intro a b ha hb hab
    have hka : pyInt? a.2.1 = some a.1 :=
      hkeys a ((List.perm_insertionSort resultKeyLe keyed).mem_iff.mp ha)
    have hkb : pyInt? b.2.1 = some b.1 :=
      hkeys b ((List.perm_insertionSort resultKeyLe keyed).mem_iff.mp hb)
    rw [hka, hkb]
    exact hab


/-- C4: when every barcode parses as an integer, save_results_to_csv succeeds
and writes (under the fixed output file name chosen by main) the fixed header
row followed by exactly one row per entry, the entries permuted into ascending
order of their integer key. -/
theorem claim_C4_sorted_write (results : List (String × String)) (existing : Option String)
    (h : ∀ r ∈ results, (pyInt? r.1).isSome) :
    (save_results_to_csv results existing).error = none ∧
    (save_results_to_csv results existing).file =
      some (csvRenderRows (headerFields ::
        ((pySortResults results).getD []).map (fun r => [r.1, r.2]))) ∧
    ((pySortResults results).getD []).Perm results ∧
    ((pySortResults results).getD []).Pairwise
      (fun a b => (pyInt? a.1).getD 0 ≤ (pyInt? b.1).getD 0) ∧
    output_csv_filename = "plates_measurement_signatures.csv" := by
  obtain ⟨h1, h2, h3, h4⟩ := save_ok results existing h
  exact ⟨h1, h2, h3, h4, rfl⟩

/-- Witness for C4: the spec example sorts 10 numerically before 200 and the
file text shows the header first. -/
theorem claim_C4_witness :
    (save_results_to_csv [("200", "uuid2"), ("10", "uuid1")] none).error = none ∧
    (save_results_to_csv [("200", "uuid2"), ("10", "uuid1")] none).file =
      some "Plate_Barcode,Measurement_Signature\r\n10,uuid1\r\n200,uuid2\r\n" := by
  have h := claim_C4_sorted_write [("200", "uuid2"), ("10", "uuid1")] none (by decide)
  refine ⟨h.1, ?_⟩
  rw [h.2.1]
  decide

/-- A field that needs no quoting contains none of the special characters. -/
theorem csvNeedsQuote_false_props {f : List Char} (h : csvNeedsQuote f = false) :
    ',' ∉ f ∧ '"' ∉ f ∧ Char.ofNat 13 ∉ f ∧ Char.ofNat 10 ∉ f := by
  unfold csvNeedsQuote at h
  rw [List.any_eq_false] at h
  refine ⟨fun m => ?_, fun m => ?_, fun m => ?_, fun m => ?_⟩ <;>
    · have hx := h _ m
      simp at hx

/-- Clean fields are serialized verbatim. -/
theorem csvField_of_clean {f : List Char} (h : csvNeedsQuote f = false) : csvField f = f := by
  unfold csvField
  rw [h]
  simp

/-- Mapping the field serializer over clean fields changes nothing. -/
theorem map_csvField_of_clean : ∀ (fs : List (List Char)),
    (∀ f ∈ fs, csvNeedsQuote f = false) → fs.map csvField = fs
  | [], _ => rfl
  | f :: fs, h => by
    simp only [List.map_cons]
    rw [csvField_of_clean (h f (by simp)),
      map_csvField_of_clean fs (fun x m => h x (List.mem_cons_of_mem _ m))]

/-- The CRLF splitter always yields at least one part. -/
theorem splitCRLF_ne_nil : ∀ (cs : List Char), splitCRLF cs ≠ []
  | [] => by simp [splitCRLF]
  | [c] => by simp [splitCRLF]
  | c1 :: c2 :: rest => by
    simp only [splitCRLF]
    split
    · simp
    · cases hs : splitCRLF (c2 :: rest) with
      | nil => exact absurd hs (splitCRLF_ne_nil (c2 :: rest))
      | cons p ps => simp [consOnHead]

/-- The CRLF splitter pulls off a CR-free record. -/
theorem splitCRLF_append : ∀ (line rest : List Char), Char.ofNat 13 ∉ line →
    splitCRLF (line ++ Char.ofNat 13 :: Char.ofNat 10 :: rest) = line :: splitCRLF rest
  | [], rest, _ => by simp [splitCRLF]
  | [c], rest, h => by
    have hc : ¬ c = Char.ofNat 13 := fun e => h (by simp [e])
    simp [splitCRLF, hc, consOnHead]
  | c1 :: c2 :: line2, rest, h => by
    have hc : ¬ c1 = Char.ofNat 13 := fun e => h (by simp [e])
    have h2 : Char.ofNat 13 ∉ c2 :: line2 := fun m => h (List.mem_cons_of_mem _ m)
    have ih := splitCRLF_append (c2 :: line2) rest h2
    simp only [List.cons_append] at ih ⊢
    simp [splitCRLF, hc, consOnHead, ih]

/-- Joined clean fields contain no CR. -/
theorem csvJoinFields_no_cr : ∀ (fs : List (List Char)), (∀ f ∈ fs, Char.ofNat 13 ∉ f) →
    Char.ofNat 13 ∉ csvJoinFields fs
  | [], _ => by simp [csvJoinFields]
  | [f], h => by
    simp only [csvJoinFields]
    exact h f (by simp)
  | f :: g :: fs, h => by
    simp only [csvJoinFields]
    intro m
    rcases List.mem_append.mp m with m1 | m2
    · exact h f (by simp) m1
    · rcases List.mem_cons.mp m2 with e | m3
      · exact absurd e (by decide)
      · exact csvJoinFields_no_cr (g :: fs)
          (fun x mx => h x (List.mem_cons_of_mem _ mx)) m3

/-- Splitting joined comma-free fields on commas recovers the fields. -/
theorem splitOnCh_joinFields : ∀ (fs : List (List Char)), fs ≠ [] → (∀ f ∈ fs, ',' ∉ f) →
    splitOnCh ',' (csvJoinFields fs) = fs
  | [], h, _ => absurd rfl h
  | [f], _, hc => by
    simp only [csvJoinFields]
    exact splitOnCh_of_not_mem f (hc f (by simp))
  | f :: g :: fs, _, hc => by
    simp only [csvJoinFields]
    rw [splitOnCh_append f _ (hc f (by simp))]
    rw [splitOnCh_joinFields (g :: fs) (by simp)
      (fun x mx => hc x (List.mem_cons_of_mem _ mx))]

/-- Splitting the rendered text on CRLF yields the joined rows plus the empty
part after the final terminator. -/
theorem splitCRLF_render : ∀ (rows : List (List String)),
    (∀ row ∈ rows, ∀ f ∈ row, csvNeedsQuote f.data = false) →
    splitCRLF ((rows.map (fun row => csvLine (row.map String.data))).flatten) =
      (rows.map (fun row => csvJoinFields (row.map String.data))) ++ [[]]
  | [], _ => by simp [splitCRLF]
  | row :: rows, h => by
    have hrow : ∀ f ∈ row, csvNeedsQuote f.data = false := h row (by simp)
    have hfclean : ∀ x ∈ row.map String.data, csvNeedsQuote x = false := by
      intro x mx
      obtain ⟨f, mf, rfl⟩ := List.mem_map.mp mx
      exact hrow f mf
    have hnocr : Char.ofNat 13 ∉ csvJoinFields (row.map String.data) := by
      refine csvJoinFields_no_cr _ ?_
      intro x mx
      exact (csvNeedsQuote_false_props (hfclean x mx)).2.2.1
    simp only [List.map_cons, List.flatten_cons]
    rw [show csvLine (row.map String.data) =
        csvJoinFields (row.map String.data) ++ [Char.ofNat 13, Char.ofNat 10] from by
      unfold csvLine
      rw [map_csvField_of_clean (row.map String.data) hfclean]]
    rw [List.append_assoc]
    simp only [List.cons_append, List.nil_append]
    rw [splitCRLF_append _ _ hnocr]
    rw [splitCRLF_render rows (fun r m => h r (List.mem_cons_of_mem _ m))]

/-- Re-reading the rendered CSV of clean, nonempty rows restores the rows. -/
theorem csvParseSimple_render (rows : List (List String))
    (hne : ∀ row ∈ rows, row ≠ [])
    (hclean : ∀ row ∈ rows, ∀ f ∈ row, csvNeedsQuote f.data = false) :
    csvParseSimple (csvRenderRows rows) = rows := by
  unfold csvParseSimple csvRenderRows
  rw [show (String.mk ((rows.map (fun row => csvLine (row.map String.data))).flatten)).data =
      (rows.map (fun row => csvLine (row.map String.data))).flatten from rfl]
  rw [splitCRLF_render rows hclean]
  rw [List.dropLast_concat]
  induction rows with
  | nil => rfl
  | cons row rows ih =>
    simp only [List.map_cons, List.cons.injEq]
    constructor
    · rw [splitOnCh_joinFields (row.map String.data)
        (by simpa using hne row (by simp))
        (by
          intro x mx
          obtain ⟨f, mf, rfl⟩ := List.mem_map.mp mx
          exact (csvNeedsQuote_false_props (hclean row (by simp) f mf)).1)]
      rw [List.map_map]
      exact List.map_id row
    · exact ih (fun r m => hne r (List.mem_cons_of_mem _ m))
        (fun r m => hclean r (List.mem_cons_of_mem _ m))

/-- An ASCII digit is none of the stripped whitespace characters. -/
theorem digit_not_space {c : Char} (h : isAsciiDigit c = true) : isPySpace c = false := by
  have h1 : ¬ c = ' ' := fun e => by rw [e] at h; exact absurd h (by decide)
  have h2 : ¬ c = Char.ofNat 9 := fun e => by rw [e] at h; exact absurd h (by decide)
  have h3 : ¬ c = Char.ofNat 10 := fun e => by rw [e] at h; exact absurd h (by decide)
  have h4 : ¬ c = Char.ofNat 13 := fun e => by rw [e] at h; exact absurd h (by decide)
  have h5 : ¬ c = Char.ofNat 11 := fun e => by rw [e] at h; exact absurd h (by decide)
  have h6 : ¬ c = Char.ofNat 12 := fun e => by rw [e] at h; exact absurd h (by decide)
  simp [isPySpace, h1, h2, h3, h4, h5, h6]

/-- dropWhile is the identity when the predicate never holds. -/
theorem dropWhile_eq_self_of_all_false {p : Char → Bool} : ∀ (l : List Char),
    (∀ c ∈ l, p c = false) → l.dropWhile p = l
  | [], _ => rfl
  | c :: l, h => by
    rw [List.dropWhile_cons]
    rw [h c (by simp)]
    simp

/-- Stripping a whitespace-free character list changes nothing. -/
theorem pyStripChars_of_no_space {cs : List Char} (h : ∀ c ∈ cs, isPySpace c = false) :
    pyStripChars cs = cs := by
  unfold pyStripChars
  rw [dropWhile_eq_self_of_all_false cs h]
  rw [dropWhile_eq_self_of_all_false cs.reverse (fun c m => h c (List.mem_reverse.mp m))]
  exact List.reverse_reverse cs

/-- The digit-run continuation succeeds on all-digit input. -/
theorem pyIntDigitsAux_digits : ∀ (ds : List Char) (acc : Nat), ds.all isAsciiDigit = true →
    (pyIntDigitsAux acc ds).isSome = true
  | [], _, _ => rfl
  | c :: ds, acc, h => by
    simp only [List.all_cons, Bool.and_eq_true] at h
    have hc : ¬ c = '_' := fun e => by rw [e] at h; exact absurd h.1 (by decide)
    unfold pyIntDigitsAux
    rw [if_neg hc, if_pos h.1]
    exact pyIntDigitsAux_digits ds _ h.2

/-- Python int() succeeds on every nonempty all-digit string. -/
theorem pyInt_digits_isSome {s : String} (h : isDigitString s = true) :
    (pyInt? s).isSome = true := by
  unfold isDigitString at h
  simp only [Bool.and_eq_true] at h
  have hdig : s.data.all isAsciiDigit = true := h.2
  have hne : s.data ≠ [] := by
    intro e
    rw [e] at h
    exact absurd h.1 (by decide)
  unfold pyInt?
  rw [pyStripChars_of_no_space
    (fun c m => digit_not_space (List.all_eq_true.mp hdig c m))]
  cases hd : s.data with
  | nil => exact absurd hd hne
  | cons c rest =>
    have hcdig : isAsciiDigit c = true := List.all_eq_true.mp hdig c (by rw [hd]; simp)
    have hc1 : ¬ c = '-' := fun e => by rw [e] at hcdig; exact absurd hcdig (by decide)
    have hc2 : ¬ c = '+' := fun e => by rw [e] at hcdig; exact absurd hcdig (by decide)
    dsimp only
    rw [if_neg hc1, if_neg hc2]
    unfold pyIntDigits
    dsimp only
    rw [if_pos hcdig]
    have hrest : rest.all isAsciiDigit = true := by
      have hx := hdig
      rw [hd] at hx
      simp only [List.all_cons, Bool.and_eq_true] at hx
      exact hx.2
    obtain ⟨v, hv⟩ := Option.isSome_iff_exists.mp
      (pyIntDigitsAux_digits rest (digitVal c) hrest)
    rw [hv]
    rfl

/-- Digit strings need no CSV quoting. -/
theorem digitString_clean {s : String} (h : isDigitString s = true) :
    csvNeedsQuote s.data = false := by
  unfold isDigitString at h
  simp only [Bool.and_eq_true] at h
  unfold csvNeedsQuote
  rw [List.any_eq_false]
  intro c m
  have hc : isAsciiDigit c = true := List.all_eq_true.mp h.2 c m
  have h1 : ¬ c = ',' := fun e => by rw [e] at hc; exact absurd hc (by decide)
  have h2 : ¬ c = '"' := fun e => by rw [e] at hc; exact absurd hc (by decide)
  have h3 : ¬ c = Char.ofNat 13 := fun e => by rw [e] at hc; exact absurd hc (by decide)
  have h4 : ¬ c = Char.ofNat 10 := fun e => by rw [e] at hc; exact absurd hc (by decide)
  simp [h1, h2, h3, h4]

/-- Canonical UUID strings need no CSV quoting. -/
theorem uuid_clean {u : List Char} (h : isCanonicalUuid u = true) :
    csvNeedsQuote u = false := by
  unfold csvNeedsQuote
  rw [List.any_eq_false]
  intro c m
  rcases isCanonicalUuid_chars h c m with hx | hx
  · have h1 : ¬ c = ',' := fun e => by rw [e] at hx; exact absurd hx (by decide)
    have h2 : ¬ c = '"' := fun e => by rw [e] at hx; exact absurd hx (by decide)
    have h3 : ¬ c = Char.ofNat 13 := fun e => by rw [e] at hx; exact absurd hx (by decide)
    have h4 : ¬ c = Char.ofNat 10 := fun e => by rw [e] at hx; exact absurd hx (by decide)
    simp [h1, h2, h3, h4]
  · subst hx
    decide

/-- C9: for result collections of digit-string barcodes and UUID-shaped
signatures, writing the CSV and re-reading it (dropping the header row)
restores exactly the written rows, which are a permutation of the input in
the numerically sorted written order. -/
theorem claim_C9_roundtrip (results : List (String × String)) (existing : Option String)
    (h1 : ∀ r ∈ results, isDigitString r.1 = true)
    (h2 : ∀ r ∈ results, isCanonicalUuid r.2.data = true) :
    (save_results_to_csv results existing).error = none ∧
    csvParseSimple ((save_results_to_csv results existing).file.getD "") =
      headerFields :: ((pySortResults results).getD []).map (fun r => [r.1, r.2]) ∧
    (csvParseSimple ((save_results_to_csv results existing).file.getD "")).drop 1 =
      ((pySortResults results).getD []).map (fun r => [r.1, r.2]) ∧
    ((pySortResults results).getD []).Perm results := by
  have hsome : ∀ r ∈ results, (pyInt? r.1).isSome := fun r m => pyInt_digits_isSome (h1 r m)
  obtain ⟨herr, hfile, hperm, _⟩ := save_ok results existing hsome
  have hrowsne : ∀ row ∈ headerFields ::
      ((pySortResults results).getD []).map (fun r => [r.1, r.2]), row ≠ [] := by
    intro row m
    rcases List.mem_cons.mp m with he | hm
    · subst he
      simp [headerFields]
    · obtain ⟨r, _, rfl⟩ := List.mem_map.mp hm
      simp
  have hrowsclean : ∀ row ∈ headerFields ::
      ((pySortResults results).getD []).map (fun r => [r.1, r.2]),
      ∀ f ∈ row, csvNeedsQuote f.data = false := by
    intro row m f mf
    rcases List.mem_cons.mp m with he | hm
    · subst he
      rcases List.mem_cons.mp mf with h1x | h2x
      · subst h1x
        decide
      · have : f = "Measurement_Signature" := by simpa [headerFields] using h2x
        subst this
        decide
    · obtain ⟨r, hr, rfl⟩ := List.mem_map.mp hm
      have hrin : r ∈ results := hperm.mem_iff.mp hr
      rcases List.mem_cons.mp mf with h1x | h2x
      · subst h1x
        exact digitString_clean (h1 r hrin)
      · have : f = r.2 := by simpa using h2x
        subst this
        exact uuid_clean (h2 r hrin)
  have hparse := csvParseSimple_render
    (headerFields :: ((pySortResults results).getD []).map (fun r => [r.1, r.2]))
    hrowsne hrowsclean
  refine ⟨herr, ?_, ?_, hperm⟩
  · rw [hfile]
    rw [show (some (csvRenderRows (headerFields ::
        ((pySortResults results).getD []).map (fun r => [r.1, r.2])))).getD "" =
      csvRenderRows (headerFields ::
        ((pySortResults results).getD []).map (fun r => [r.1, r.2])) from rfl]
    exact hparse
  · rw [hfile]
    rw [show (some (csvRenderRows (headerFields ::
        ((pySortResults results).getD []).map (fun r => [r.1, r.2])))).getD "" =
      csvRenderRows (headerFields ::
        ((pySortResults results).getD []).map (fun r => [r.1, r.2])) from rfl]
    rw [hparse]
    rfl

/-- Witness for C9 at a concrete two-entry collection with UUID signatures. -/
theorem claim_C9_witness :
    (save_results_to_csv
        [("200", "abc12345-1111-2222-3333-444455556666"),
         ("10", "00000000-0000-0000-0000-000000000000")] none).error = none ∧
    csvParseSimple ((save_results_to_csv
        [("200", "abc12345-1111-2222-3333-444455556666"),
         ("10", "00000000-0000-0000-0000-000000000000")] none).file.getD "") =
      headerFields :: ((pySortResults
        [("200", "abc12345-1111-2222-3333-444455556666"),
         ("10", "00000000-0000-0000-0000-000000000000")]).getD []).map
          (fun r => [r.1, r.2]) ∧
    (csvParseSimple ((save_results_to_csv
        [("200", "abc12345-1111-2222-3333-444455556666"),
         ("10", "00000000-0000-0000-0000-000000000000")] none).file.getD "")).drop 1 =
      ((pySortResults
        [("200", "abc12345-1111-2222-3333-444455556666"),
         ("10", "00000000-0000-0000-0000-000000000000")]).getD []).map
          (fun r => [r.1, r.2]) ∧
    ((pySortResults
        [("200", "abc12345-1111-2222-3333-444455556666"),
         ("10", "00000000-0000-0000-0000-000000000000")]).getD []).Perm
      [("200", "abc12345-1111-2222-3333-444455556666"),
       ("10", "00000000-0000-0000-0000-000000000000")] :=
  claim_C9_roundtrip
    [("200", "abc12345-1111-2222-3333-444455556666"),
     ("10", "00000000-0000-0000-0000-000000000000")] none
    (by decide) (by decide)

/-- A signature produced by the reader always comes from
extract_measurement_signature applied to some URL taken from the file. -/
theorem process_indexfileFull_some (path : String) (lines : List String) (s : String)
    (h : (process_indexfileFull path lines).1 = some s) :
    ∃ url, extract_measurement_signature url = some s := by
  unfold process_indexfileFull at h
  cases hf : findUrlColIdx (headerCols lines) with
  | none => rw [hf] at h; simp at h
  | some i =>
    rw [hf] at h
    dsimp only at h
    by_cases he : (pyStripChars (lines.tail.headD "").data).isEmpty = true
    · rw [if_pos he] at h
      simp at h
    · rw [if_neg he] at h
      by_cases hlt : i < (splitOnCh '\t' (pyStripChars (lines.tail.headD "").data)).length
      · rw [if_pos hlt] at h
        exact ⟨_, h⟩
      · rw [if_neg hlt] at h
        simp at h

/-- A successful extraction yields a nonempty canonical UUID. -/
theorem extract_measurement_signature_sound {url s : String}
    (h : extract_measurement_signature url = some s) :
    isCanonicalUuid s.data = true ∧ s ≠ "" := by
  unfold extract_measurement_signature at h
  rw [reSearchUuid_eq_segs] at h
  cases hh : ((internalSegs url.data).filter isCanonicalUuid).head? with
  | none => rw [hh] at h; simp at h
  | some u =>
    rw [hh] at h
    simp only [Option.map_some', Option.some.injEq] at h
    subst h
    have hmem : u ∈ (internalSegs url.data).filter isCanonicalUuid :=
      List.mem_of_mem_head? (by rw [hh]; rfl)
    have hcan : isCanonicalUuid u = true := List.of_mem_filter hmem
    refine ⟨hcan, ?_⟩
    intro he
    have hdata : u = [] := congrArg String.data he
    have := isCanonicalUuid_length hcan
    rw [hdata] at this
    simp at this

/-- Invariant of the scan, by induction over the entry list: every emitted
record carries a nonempty canonical-UUID signature obtained through
extract_measurement_signature from the folder's metadata file, under the
barcode extracted from that folder's name. -/
theorem scan_invariant (dirPath : String) : ∀ (entries : List Entry),
    ∀ r ∈ (process_indexfiles_directory dirPath entries).1,
      r.2 ≠ "" ∧ isCanonicalUuid r.2.data = true ∧
      (∃ url, extract_measurement_signature url = some r.2) ∧
      ∃ name files flines, Entry.dir name files ∈ entries ∧
        files.lookup "indexfile.txt" = some flines ∧
        r.1 = extract_plate_barcode name ∧
        (process_indexfileFull (dirPath ++ "/" ++ name ++ "/indexfile.txt") flines).1 = some r.2
  | [], r, hm => absurd hm (by simp [process_indexfiles_directory])
  | e :: es, r, hm => by
    simp only [process_indexfiles_directory] at hm
    rcases List.mem_append.mp hm with h1 | h2
    · cases e with
      | file nm => simp [entryProcess] at h1
      | dir name files =>
        unfold entryProcess at h1
        dsimp only at h1
        cases hl : files.lookup "indexfile.txt" with
        | none =>
          rw [hl] at h1
          simp at h1
        | some flines =>
          rw [hl] at h1
          dsimp only at h1
          cases hr : (process_indexfileFull
              (dirPath ++ "/" ++ name ++ "/indexfile.txt") flines).1 with
          | none =>
            rw [hr] at h1
            simp at h1
          | some sg =>
            rw [hr] at h1
            dsimp only at h1
            by_cases hs : sg = ""
            · rw [if_pos hs] at h1
              simp at h1
            · rw [if_neg hs] at h1
              simp only [List.mem_singleton] at h1
              subst h1
              obtain ⟨url, hurl⟩ := process_indexfileFull_some _ flines sg hr
              obtain ⟨hcanon, _⟩ := extract_measurement_signature_sound hurl
              exact ⟨hs, hcanon, ⟨url, hurl⟩, name, files, flines, by simp, hl, rfl, hr⟩
    · obtain ⟨ha, hb, hc, name, files, flines, hmem, hrest⟩ :=
        scan_invariant dirPath es r h2
      exact ⟨ha, hb, hc, name, files, flines, List.mem_cons_of_mem _ hmem, hrest⟩

/-- C6: every (barcode, signature) record returned by the directory scan has
both components successfully derived: the signature is a nonempty canonical
UUID produced by extract_measurement_signature on a URL of the folder's
metadata file, and the barcode comes from extract_plate_barcode on the folder
name; folders whose extraction yields no signature contribute nothing. -/
theorem claim_C6_result_invariant (dirPath : String) (entries : List Entry) :
    ∀ r ∈ (process_indexfiles_directory dirPath entries).1,
      r.2 ≠ "" ∧ isCanonicalUuid r.2.data = true ∧
      (∃ url, extract_measurement_signature url = some r.2) ∧
      ∃ name files flines, Entry.dir name files ∈ entries ∧
        files.lookup "indexfile.txt" = some flines ∧
        r.1 = extract_plate_barcode name ∧
        (process_indexfileFull (dirPath ++ "/" ++ name ++ "/indexfile.txt") flines).1 =
          some r.2 :=
  scan_invariant dirPath entries

/-- Witness for C6 at the two-folder demo scenario. -/
theorem claim_C6_witness :
    ("100", "abc12345-1111-2222-3333-444455556666") ∈
      (process_indexfiles_directory "indexfiles" demoEntries).1 ∧
    ("abc12345-1111-2222-3333-444455556666" : String) ≠ "" ∧
    isCanonicalUuid ("abc12345-1111-2222-3333-444455556666" : String).data = true := by
  have hmem : ("100", "abc12345-1111-2222-3333-444455556666") ∈
      (process_indexfiles_directory "indexfiles" demoEntries).1 := by decide
  have h := claim_C6_result_invariant "indexfiles" demoEntries _ hmem
  exact ⟨hmem, h.1, h.2.1⟩

/-- C8: the scan looks only at directory entries of the root (plain files
contribute nothing), and on the spec's two-folder scenario it returns exactly
one record, for barcode 100, while the missing metadata file of 200__B is
reported by a warning whose text mentions that folder. -/
theorem claim_C8_directory_scan :
    (∀ (dirPath nm : String) (es : List Entry),
      process_indexfiles_directory dirPath (Entry.file nm :: es) =
        process_indexfiles_directory dirPath es) ∧
    (process_indexfiles_directory "indexfiles" demoEntries).1 =
      [("100", "abc12345-1111-2222-3333-444455556666")] ∧
    ("Warning: indexfile.txt not found in indexfiles/200__B") ∈
      (process_indexfiles_directory "indexfiles" demoEntries).2 ∧
    containsSub "200__B".data
      ("Warning: indexfile.txt not found in indexfiles/200__B").data = true := by
  refine ⟨?_, by decide, by decide, by decide⟩
  intro dirPath nm es
  simp [process_indexfiles_directory, entryProcess]

end ParseIndexfiles
